import Mathlib

/-!
Verification of the sales-analytics pipeline
(`utils/file_handler.py`, `utils/data_processor.py`, `utils/api_handler.py`).

The Python code is shallowly embedded: every function below is a direct
translation of the corresponding Python function, with
- Python `float` idealised as `ℚ` (exact arithmetic),
- Python `int` as `ℤ`,
- Python dicts (which preserve insertion order) as association lists,
- Python exceptions as `Option` (`none` = the call raises).

String primitives (`str.split`, `str.replace`, `str.startswith`, `int()`,
`float()`, string comparison) are modelled as structurally recursive
functions on `List Char` so that they evaluate inside the kernel.
-/

/-- Model of Python `str.split(c)` on the underlying character list:
splitting the empty string yields `[[]]`, separators delimit (possibly
empty) segments. -/
def splitOnChar (c : Char) : List Char → List (List Char)
  | [] => [[]]
  | x :: rest =>
    let r := splitOnChar c rest
    if x = c then [] :: r
    else
      match r with
      | [] => [[x]]
      | h :: t => (x :: h) :: t

/-- Model of Python `str.split(c)` returning strings. -/
def pySplit (s : String) (c : Char) : List String :=
  (splitOnChar c s.toList).map List.asString

/-- Model of Python `s.replace(old, '')` for a single-character `old`:
removes every occurrence of the character. -/
def removeChar (c : Char) (s : String) : String :=
  (s.toList.filter (fun x => !(x = c))).asString

/-- Model of Python `s.replace(old, new)` for single characters. -/
def replaceChar (c r : Char) (s : String) : String :=
  (s.toList.map (fun x => if x = c then r else x)).asString

/-- Model of Python `str.startswith(p)`. -/
def pyStartsWith (s p : String) : Bool :=
  p.toList.isPrefixOf s.toList

/-- Strip leading and trailing whitespace, as Python `int()` / `float()`
do before conversion. -/
def trimWs (cs : List Char) : List Char :=
  ((cs.dropWhile Char.isWhitespace).reverse.dropWhile Char.isWhitespace).reverse

/-- Numeric value of a list of decimal digit characters. -/
def natVal (cs : List Char) : ℕ :=
  cs.foldl (fun n c => 10 * n + (c.toNat - 48)) 0

/-- Conversion of a non-empty all-digit character list; `none` otherwise. -/
def digitsVal? (cs : List Char) : Option ℕ :=
  if !cs.isEmpty && cs.all (·.isDigit) then some (natVal cs) else none

/-- Model of Python `int(s)` (the forms produced by this data set:
optional surrounding whitespace, optional sign, decimal digits; Python's
underscore grouping and other exotic forms are not modelled).  `none`
models the `ValueError` raised on failure. -/
def pyInt? (s : String) : Option ℤ :=
  match trimWs s.toList with
  | '+' :: cs => (digitsVal? cs).map (fun n => (n : ℤ))
  | '-' :: cs => (digitsVal? cs).map (fun n => -(n : ℤ))
  | cs => (digitsVal? cs).map (fun n => (n : ℤ))

/-- Unsigned decimal literal with an optional single point, as accepted by
Python `float()` (exponent, `inf` and `nan` forms are not modelled). -/
def floatBody? (cs : List Char) : Option ℚ :=
  match splitOnChar '.' cs with
  | [i] => (digitsVal? i).map (fun n => (n : ℚ))
  | [i, f] =>
    if (i.all (·.isDigit) && f.all (·.isDigit)) && !(i.isEmpty && f.isEmpty) then
      some ((natVal i : ℚ) + (natVal f : ℚ) / (10 : ℚ) ^ f.length)
    else none
  | _ => none

/-- Model of Python `float(s)`; `none` models the `ValueError` raised on
failure. -/
def pyFloat? (s : String) : Option ℚ :=
  match trimWs s.toList with
  | '+' :: cs => floatBody? cs
  | '-' :: cs => (floatBody? cs).map (fun q => -q)
  | cs => floatBody? cs

/-- Model of Python string comparison (lexicographic on code points),
used for sorting date strings. -/
def lexLE : List Char → List Char → Bool
  | [], _ => true
  | _ :: _, [] => false
  | a :: as, b :: bs => if a = b then lexLE as bs else decide (a < b)

/-- `a ≤ b` on strings, as Python compares the fixed-format date strings. -/
def dateLE (a b : String) : Bool := lexLE a.toList b.toList

/-- A parsed transaction record, mirroring the dict built by
`parse_transactions` (`file_handler.py` lines 44-53).  The three `Option`
fields model the keys that `enrich_transaction_data` adds later
(`data_processor.py` lines 138-142); they are absent (`none`) on a freshly
parsed record. -/
structure Txn where
  TransactionID : String
  Date : String
  ProductID : String
  ProductName : String
  Quantity : ℤ
  UnitPrice : ℚ
  CustomerID : String
  Region : String
  UnitPrice_INR : Option ℚ := none
  Total_Amount_INR : Option ℚ := none
  Region_Manager : Option String := none
deriving DecidableEq

/-- The per-line body of the `parse_transactions` loop
(`file_handler.py` lines 31-56): split on `'|'`, require exactly 8 fields,
strip commas from the numeric fields, convert; `none` models
`continue` (wrong field count, or `ValueError` from `int`/`float`). -/
def parseLine? (line : String) : Option Txn :=
  let parts := pySplit line '|'
  if h : parts.length = 8 then
    match pyInt? (removeChar ',' (parts.get ⟨4, by omega⟩)),
          pyFloat? (removeChar ',' (parts.get ⟨5, by omega⟩)) with
    | some q, some p =>
      some { TransactionID := parts.get ⟨0, by omega⟩
             Date := parts.get ⟨1, by omega⟩
             ProductID := parts.get ⟨2, by omega⟩
             ProductName := replaceChar ',' ' ' (parts.get ⟨3, by omega⟩)
             Quantity := q
             UnitPrice := p
             CustomerID := parts.get ⟨6, by omega⟩
             Region := parts.get ⟨7, by omega⟩ }
    | _, _ => none
  else none

/-- `parse_transactions` (`file_handler.py` lines 25-58): the loop keeps
the successfully parsed records in input order. -/
def parse_transactions : List String → List Txn
  | [] => []
  | line :: rest =>
    match parseLine? line with
    | some t => t :: parse_transactions rest
    | none => parse_transactions rest

theorem parse_transactions_eq_filterMap (raw : List String) :
    parse_transactions raw = raw.filterMap parseLine? := by
  induction raw with
  | nil => rfl
  | cons line rest ih =>
    simp only [parse_transactions, List.filterMap_cons]
    cases parseLine? line <;> simp [ih]

theorem parseLine_isSome_iff (line : String) :
    (parseLine? line).isSome =
      (decide ((pySplit line '|').length = 8)
        && (pyInt? (removeChar ',' ((pySplit line '|').getD 4 ""))).isSome
        && (pyFloat? (removeChar ',' ((pySplit line '|').getD 5 ""))).isSome) := by
  unfold parseLine?
  by_cases h : (pySplit line '|').length = 8
  · simp only [h, dif_pos]
    rw [List.getD_eq_getElem _ _ (by omega), List.getD_eq_getElem _ _ (by omega)]
    simp only [List.get_eq_getElem]
    cases pyInt? (removeChar ',' (pySplit line '|')[4]) <;>
      cases pyFloat? (removeChar ',' (pySplit line '|')[5]) <;> simp [h]
  · simp [h]

/-- C2: a line yields a parsed record iff it splits on `'|'` into exactly 8
fields and, after comma-stripping, the Quantity field converts to an
integer and the UnitPrice field converts to a decimal; the output is the
input sequence filtered by that per-line test (order preserved, drops
removed).  The parser is a total function, so no exception escapes it. -/
theorem claim_C2 (raw : List String) :
    parse_transactions raw = raw.filterMap parseLine? ∧
    ∀ line : String,
      (parseLine? line).isSome =
        (decide ((pySplit line '|').length = 8)
          && (pyInt? (removeChar ',' ((pySplit line '|').getD 4 ""))).isSome
          && (pyFloat? (removeChar ',' ((pySplit line '|').getD 5 ""))).isSome) :=
  ⟨parse_transactions_eq_filterMap raw, parseLine_isSome_iff⟩

/-- Business validity (`file_handler.py` lines 72-78). -/
def is_valid (t : Txn) : Bool :=
  pyStartsWith t.TransactionID "T" && pyStartsWith t.ProductID "P"
    && pyStartsWith t.CustomerID "C" && decide (0 < t.Quantity)
    && decide (0 < t.UnitPrice)

/-- `Quantity * UnitPrice` (`file_handler.py` line 89). -/
def amount (t : Txn) : ℚ := (t.Quantity : ℚ) * t.UnitPrice

/-- The region filter test (`file_handler.py` line 85):
`if region and txn['Region'] != region`.  Python truthiness makes
`None` and the empty string both skip the filter. -/
def regionDrops (region : Option String) (t : Txn) : Bool :=
  match region with
  | none => false
  | some r => decide (r ≠ "") && decide (t.Region ≠ r)

/-- The amount filter test (`file_handler.py` line 90):
`(min_amount and total_amt < min_amount) or (max_amount and total_amt > max_amount)`.
Python truthiness makes `None` and `0` both skip the corresponding bound. -/
def amountDrops (mn mx : Option ℚ) (amt : ℚ) : Bool :=
  (match mn with
    | none => false
    | some m => decide (m ≠ 0) && decide (amt < m))
  || (match mx with
    | none => false
    | some m => decide (m ≠ 0) && decide (m < amt))

/-- The loop of `validate_and_filter` (`file_handler.py` lines 70-94),
returning (valid list, invalid, filtered_by_region, filtered_by_amount). -/
def vfLoop (region : Option String) (mn mx : Option ℚ) :
    List Txn → List Txn × ℕ × ℕ × ℕ
  | [] => ([], 0, 0, 0)
  | t :: rest =>
    let r := vfLoop region mn mx rest
    if !is_valid t then (r.1, r.2.1 + 1, r.2.2.1, r.2.2.2)
    else if regionDrops region t then (r.1, r.2.1, r.2.2.1 + 1, r.2.2.2)
    else if amountDrops mn mx (amount t) then (r.1, r.2.1, r.2.2.1, r.2.2.2 + 1)
    else (t :: r.1, r.2.1, r.2.2.1, r.2.2.2)

/-- The summary dict built at `file_handler.py` lines 96-102. -/
structure FilterSummary where
  total_input : ℕ
  invalid : ℕ
  filtered_by_region : ℕ
  filtered_by_amount : ℕ
  final_count : ℕ
deriving DecidableEq

/-- `validate_and_filter` (`file_handler.py` lines 60-104): returns
`(valid_list, invalid_count, summary)`. -/
def validate_and_filter (ts : List Txn) (region : Option String := none)
    (mn : Option ℚ := none) (mx : Option ℚ := none) :
    List Txn × ℕ × FilterSummary :=
  let r := vfLoop region mn mx ts
  (r.1, r.2.1,
    { total_input := ts.length
      invalid := r.2.1
      filtered_by_region := r.2.2.1
      filtered_by_amount := r.2.2.2
      final_count := r.1.length })

theorem vfLoop_eq (region : Option String) (mn mx : Option ℚ) (ts : List Txn) :
    vfLoop region mn mx ts =
      (ts.filter (fun t => is_valid t && !(regionDrops region t)
          && !(amountDrops mn mx (amount t))),
       (ts.filter (fun t => !(is_valid t))).length,
       (ts.filter (fun t => is_valid t && regionDrops region t)).length,
       (ts.filter (fun t => is_valid t && !(regionDrops region t)
          && amountDrops mn mx (amount t))).length) := by
  induction ts with
  | nil => rfl
  | cons t rest ih =>
    simp only [vfLoop, ih, List.filter_cons]
    cases hv : is_valid t <;> cases hr : regionDrops region t <;>
      cases ha : amountDrops mn mx (amount t) <;> simp [hv, hr, ha]

theorem vf_partition (region : Option String) (mn mx : Option ℚ) (ts : List Txn) :
    ts.length =
      (ts.filter (fun t => !(is_valid t))).length
      + (ts.filter (fun t => is_valid t && regionDrops region t)).length
      + (ts.filter (fun t => is_valid t && !(regionDrops region t)
          && amountDrops mn mx (amount t))).length
      + (ts.filter (fun t => is_valid t && !(regionDrops region t)
          && !(amountDrops mn mx (amount t)))).length := by
  induction ts with
  | nil => rfl
  | cons t rest ih =>
    simp only [List.filter_cons, List.length_cons]
    cases hv : is_valid t <;> cases hr : regionDrops region t <;>
      cases ha : amountDrops mn mx (amount t) <;>
        simp [hv, hr, ha] <;> omega

/-- C1: over any input and any filter settings, the `invalid` counter counts
exactly the transactions failing the business-validity test (TransactionID
starts with `'T'`, ProductID with `'P'`, CustomerID with `'C'`,
`Quantity > 0`, `UnitPrice > 0`); every transaction in the output is
business-valid.  The counter value does not depend on the region or amount
filter arguments, i.e. invalid classification precedes both filters. -/
theorem claim_C1 (ts : List Txn) (region : Option String) (mn mx : Option ℚ) :
    (validate_and_filter ts region mn mx).2.1
        = (ts.filter (fun t => !(is_valid t))).length ∧
    ∀ t ∈ (validate_and_filter ts region mn mx).1, is_valid t = true := by
  constructor
  · simp [validate_and_filter, vfLoop_eq]
  · intro t ht
    simp only [validate_and_filter, vfLoop_eq, List.mem_filter] at ht
    exact (Bool.and_eq_true_iff.mp (Bool.and_eq_true_iff.mp ht.2).1).1

/-- Sample transaction: the spec's valid scenario record
`"T001|2024-01-01|P01|Widget|5|10|C01|North"`. -/
def t0 : Txn :=
  { TransactionID := "T001", Date := "2024-01-01", ProductID := "P01",
    ProductName := "Widget", Quantity := 5, UnitPrice := 10,
    CustomerID := "C01", Region := "North" }

theorem claim_C1_witness : is_valid t0 = true :=
  (claim_C1 [t0] none none none).2 t0 (by decide)

/-- C7: the summary partitions the input: `total_input` equals the length of
the input list and equals `invalid + filtered_by_region +
filtered_by_amount + final_count`; `final_count` is the length of the
returned valid list, and the valid list is a sublist of the input (input
order preserved, every element taken from the input). -/
theorem claim_C7 (ts : List Txn) (region : Option String) (mn mx : Option ℚ) :
    (validate_and_filter ts region mn mx).2.2.total_input = ts.length ∧
    (validate_and_filter ts region mn mx).2.2.total_input
      = (validate_and_filter ts region mn mx).2.2.invalid
        + (validate_and_filter ts region mn mx).2.2.filtered_by_region
        + (validate_and_filter ts region mn mx).2.2.filtered_by_amount
        + (validate_and_filter ts region mn mx).2.2.final_count ∧
    (validate_and_filter ts region mn mx).2.2.final_count
      = (validate_and_filter ts region mn mx).1.length ∧
    (validate_and_filter ts region mn mx).1.Sublist ts := by
  refine ⟨rfl, ?_, rfl, ?_⟩
  · simp only [validate_and_filter, vfLoop_eq]
    have := vf_partition region mn mx ts
    omega
  · simp only [validate_and_filter, vfLoop_eq]
    exact List.filter_sublist ts

/-- C6 counterexample: `t0` is business-valid, passes the (absent) region
filter, and its amount `50` is strictly above the provided maximum bound
`0`, so the claim predicts it is dropped with `filtered_by_amount = 1`;
the code keeps it and leaves the counter at `0`, because
`max_amount = 0` is falsy in `if (... ) or (max_amount and total_amt > max_amount)`. -/
theorem claim_C6_counterexample :
    is_valid t0 = true ∧ regionDrops none t0 = false ∧ (0 : ℚ) < amount t0 ∧
    (validate_and_filter [t0] none none (some 0)).1 = [t0] ∧
    (validate_and_filter [t0] none none (some 0)).2.2.filtered_by_amount = 0 := by
  refine ⟨by decide, rfl, ?_, by decide, by decide⟩
  show (0 : ℚ) < (5 : ℤ) * (10 : ℚ)
  norm_num

/-- C6 as amended: the amount filter drops a business-valid, region-passing
transaction iff a provided bound is *nonzero* (truthy) and violated — an
amount strictly below a provided nonzero minimum, or strictly above a
provided nonzero maximum; each such drop increments `filtered_by_amount`
once.  A provided bound equal to `0` is treated as absent. -/
theorem claim_C6_amended (ts : List Txn) (region : Option String) (mn mx : Option ℚ) :
    (validate_and_filter ts region mn mx).2.2.filtered_by_amount
      = (ts.filter (fun t => is_valid t && !(regionDrops region t)
          && amountDrops mn mx (amount t))).length ∧
    (validate_and_filter ts region mn mx).1
      = ts.filter (fun t => is_valid t && !(regionDrops region t)
          && !(amountDrops mn mx (amount t))) ∧
    ∀ amt : ℚ, amountDrops mn mx amt = true ↔
      ((∃ m, mn = some m ∧ m ≠ 0 ∧ amt < m) ∨
       (∃ m, mx = some m ∧ m ≠ 0 ∧ m < amt)) := by
  refine ⟨by simp [validate_and_filter, vfLoop_eq], by simp [validate_and_filter, vfLoop_eq], ?_⟩
  intro amt
  cases mn <;> cases mx <;> simp [amountDrops]

/-- Model of inserting into / updating an insertion-ordered Python dict:
`stats[k] = f(stats[k])` after `if k not in stats: stats[k] = z`.  A new key
is appended at the end, matching dict insertion order. -/
def upsert {β : Type} (key : String) (f : β → β) (z : β) :
    List (String × β) → List (String × β)
  | [] => [(key, f z)]
  | (k, v) :: rest =>
    if k = key then (k, f v) :: rest else (k, v) :: upsert key f z rest

/-- Dict lookup on the association-list model. -/
def findVal {β : Type} (target : String) : List (String × β) → Option β
  | [] => none
  | (k, v) :: rest => if k = target then some v else findVal target rest

/-- The generic shape of the aggregation loops in `data_processor.py`:
`for t in l: if key(t) not in stats: stats[key(t)] = z; stats[key(t)] = f t (stats[key(t)])`. -/
def groupFold {α β : Type} (key : α → String) (f : α → β → β) (z : β)
    (l : List α) : List (String × β) :=
  l.foldl (fun g t => upsert (key t) (f t) z g) []

/-- The sequence of distinct keys in first-encounter order — the key order
of an insertion-ordered dict built by a grouping loop. -/
def firstOccurrences (ks : List String) : List String :=
  ks.foldl (fun acc k => if k ∈ acc then acc else acc ++ [k]) []

theorem upsert_ne_nil {β : Type} (key : String) (f : β → β) (z : β)
    (g : List (String × β)) : upsert key f z g ≠ [] := by
  cases g with
  | nil => simp [upsert]
  | cons p rest =>
    obtain ⟨k, v⟩ := p
    by_cases h : k = key <;> simp [upsert, h]

theorem map_fst_upsert {β : Type} (key : String) (f : β → β) (z : β)
    (g : List (String × β)) :
    (upsert key f z g).map Prod.fst =
      if key ∈ g.map Prod.fst then g.map Prod.fst
      else g.map Prod.fst ++ [key] := by
  induction g with
  | nil => simp [upsert]
  | cons p rest ih =>
    obtain ⟨k, v⟩ := p
    by_cases h : k = key
    · subst h
      simp [upsert]
    · simp only [upsert, if_neg h, List.map_cons, ih, List.mem_cons]
      by_cases hm : key ∈ rest.map Prod.fst
      · simp [hm, Ne.symm h]
      · simp [hm, Ne.symm h]

theorem nodup_map_fst_upsert {β : Type} (key : String) (f : β → β) (z : β)
    {g : List (String × β)} (h : (g.map Prod.fst).Nodup) :
    ((upsert key f z g).map Prod.fst).Nodup := by
  rw [map_fst_upsert]
  by_cases hm : key ∈ g.map Prod.fst
  · simpa [hm]
  · simpa [hm, List.nodup_append] using h

theorem findVal_upsert {β : Type} (key : String) (f : β → β) (z : β)
    (g : List (String × β)) (r : String) :
    findVal r (upsert key f z g) =
      if r = key then some (f ((findVal key g).getD z)) else findVal r g := by
  induction g with
  | nil =>
    by_cases h : r = key
    · simp [upsert, findVal, h]
    · have h2 : key ≠ r := fun hh => h hh.symm
      simp [upsert, findVal, h, h2]
  | cons p rest ih =>
    obtain ⟨k, v⟩ := p
    by_cases hk : k = key
    · subst hk
      by_cases hr : r = k
      · subst hr
        simp [upsert, findVal]
      · have hr2 : k ≠ r := fun hh => hr hh.symm
        simp [upsert, findVal, hr, hr2]
    · by_cases hkr : k = r
      · subst hkr
        simp [upsert, if_neg hk, findVal, hk]
      · simp [upsert, if_neg hk, findVal, hkr, ih]

theorem findVal_eq_none_iff {β : Type} (r : String) (g : List (String × β)) :
    findVal r g = none ↔ r ∉ g.map Prod.fst := by
  induction g with
  | nil => simp [findVal]
  | cons p rest ih =>
    obtain ⟨k, v⟩ := p
    by_cases h : k = r
    · simp [findVal, h]
    · have h2 : r ≠ k := fun hh => h hh.symm
      simp [findVal, h, h2, ih]

theorem findVal_of_mem {β : Type} {g : List (String × β)} {p : String × β}
    (hnd : (g.map Prod.fst).Nodup) (hm : p ∈ g) :
    findVal p.1 g = some p.2 := by
  induction g with
  | nil => cases hm
  | cons q rest ih =>
    obtain ⟨k, v⟩ := q
    rcases List.mem_cons.mp hm with h | h
    · subst h
      simp [findVal]
    · have hk : k ≠ p.1 := by
        intro hh
        subst hh
        exact (List.nodup_cons.mp hnd).1
          (List.mem_map.mpr ⟨p, h, rfl⟩)
      simp only [findVal, if_neg hk]
      exact ih (List.nodup_cons.mp hnd).2 h

theorem foldl_upsert_ne_nil {α β : Type} (key : α → String) (f : α → β → β)
    (z : β) :
    ∀ (l : List α) (g : List (String × β)), g ≠ [] →
      l.foldl (fun g t => upsert (key t) (f t) z g) g ≠ []
  | [], _, hg => hg
  | t :: l, g, _ =>
    foldl_upsert_ne_nil key f z l _ (upsert_ne_nil (key t) (f t) z g)

theorem groupFold_ne_nil {α β : Type} (key : α → String) (f : α → β → β)
    (z : β) {l : List α} (h : l ≠ []) : groupFold key f z l ≠ [] := by
  cases l with
  | nil => exact absurd rfl h
  | cons t rest =>
    exact foldl_upsert_ne_nil key f z rest _ (upsert_ne_nil (key t) (f t) z [])

theorem map_fst_foldl_upsert {α β : Type} (key : α → String) (f : α → β → β)
    (z : β) :
    ∀ (l : List α) (g : List (String × β)),
      ((l.foldl (fun g t => upsert (key t) (f t) z g) g).map Prod.fst)
        = (l.map key).foldl
            (fun acc k => if k ∈ acc then acc else acc ++ [k])
            (g.map Prod.fst)
  | [], g => rfl
  | t :: l, g => by
    simp only [List.foldl_cons, List.map_cons]
    rw [map_fst_foldl_upsert key f z l _, map_fst_upsert]

theorem map_fst_groupFold {α β : Type} (key : α → String) (f : α → β → β)
    (z : β) (l : List α) :
    (groupFold key f z l).map Prod.fst = firstOccurrences (l.map key) :=
  map_fst_foldl_upsert key f z l []

theorem nodup_foldl_firstOcc :
    ∀ (ks : List String) (acc : List String), acc.Nodup →
      (ks.foldl (fun acc k => if k ∈ acc then acc else acc ++ [k]) acc).Nodup
  | [], _, h => h
  | k :: ks, acc, h => by
    simp only [List.foldl_cons]
    apply nodup_foldl_firstOcc ks
    by_cases hm : k ∈ acc
    · simpa [hm]
    · simpa [hm, List.nodup_append] using h

theorem nodup_map_fst_groupFold {α β : Type} (key : α → String)
    (f : α → β → β) (z : β) (l : List α) :
    ((groupFold key f z l).map Prod.fst).Nodup := by
  rw [map_fst_groupFold]
  exact nodup_foldl_firstOcc (l.map key) [] List.nodup_nil

theorem findVal_getD_foldl {α β : Type} (key : α → String) (f : α → β → β)
    (z : β) :
    ∀ (l : List α) (g : List (String × β)) (r : String),
      (findVal r (l.foldl (fun g t => upsert (key t) (f t) z g) g)).getD z
        = (l.filter (fun t => decide (key t = r))).foldl
            (fun b t => f t b) ((findVal r g).getD z)
  | [], g, r => rfl
  | t :: l, g, r => by
    simp only [List.foldl_cons, List.filter_cons]
    rw [findVal_getD_foldl key f z l _ r]
    by_cases h : key t = r
    · subst h
      simp [findVal_upsert]
    · have h2 : r ≠ key t := fun hh => h hh.symm
      simp [findVal_upsert, h, h2]

/-- Model of Python `round(q, 2)` under the `ℚ` idealisation of floats:
round to 2 decimal places, ties to the even hundredth (banker's
rounding, as Python's `round` does). -/
def roundHalfEven (q : ℚ) : ℤ :=
  let f := Rat.floor q
  let frac := q - (f : ℚ)
  if frac < 1/2 then f
  else if 1/2 < frac then f + 1
  else if f % 2 = 0 then f else f + 1

/-- `round(q, 2)`. -/
def round2 (q : ℚ) : ℚ := ((roundHalfEven (q * 100) : ℤ) : ℚ) / 100

/-- `calculate_total_revenue` (`data_processor.py` lines 35-37). -/
def calculate_total_revenue (ts : List Txn) : ℚ := (ts.map amount).sum

/-- The accumulator update of the `region_wise_sales` grouping loop
(`data_processor.py` lines 49-50). -/
def regionStep (t : Txn) (p : ℚ × ℕ) : ℚ × ℕ := (p.1 + amount t, p.2 + 1)

/-- The `region_stats` dict after the first loop of `region_wise_sales`
(`data_processor.py` lines 42-50), in insertion order. -/
def regionGroups (ts : List Txn) : List (String × (ℚ × ℕ)) :=
  groupFold Txn.Region regionStep (0, 0) ts

/-- One entry of the mapping returned by `region_wise_sales`: the inner
dict `{'total_sales': ..., 'transaction_count': ..., 'percentage': ...}`
together with its region key. -/
structure RegionStat where
  region : String
  total_sales : ℚ
  transaction_count : ℕ
  percentage : ℚ
deriving DecidableEq

/-- The entries of `region_stats` after the percentage loop
(`data_processor.py` lines 52-53), still in insertion (first-encounter)
order, before the final sort. -/
def region_entries (ts : List Txn) : List RegionStat :=
  (regionGroups ts).map (fun g =>
    { region := g.1, total_sales := g.2.1, transaction_count := g.2.2,
      percentage := round2 (g.2.1 / calculate_total_revenue ts * 100) })

/-- The sort key of `data_processor.py` line 56:
`sorted(..., key=lambda x: x[1]['total_sales'], reverse=True)`.
Python's sort is stable, as is `List.mergeSort`. -/
def byTotalDesc (a b : RegionStat) : Bool := decide (b.total_sales ≤ a.total_sales)

/-- `region_wise_sales` (`data_processor.py` lines 39-56).  `none` models
the `ZeroDivisionError` raised by the percentage loop when the stats dict
is non-empty and the overall revenue is `0`; otherwise the percentaged
entries are returned sorted by total sales descending (stable). -/
def region_wise_sales (ts : List Txn) : Option (List RegionStat) :=
  if regionGroups ts ≠ [] ∧ calculate_total_revenue ts = 0 then none
  else some ((region_entries ts).mergeSort byTotalDesc)

theorem foldl_regionStep (sel : List Txn) :
    ∀ b : ℚ × ℕ,
      sel.foldl (fun p t => regionStep t p) b
        = (b.1 + (sel.map amount).sum, b.2 + sel.length) := by
  induction sel with
  | nil => intro b; simp
  | cons t rest ih =>
    intro b
    rw [List.foldl_cons, ih (regionStep t b)]
    simp only [regionStep, List.map_cons, List.sum_cons, List.length_cons,
      Prod.mk.injEq]
    constructor
    · ring
    · omega

theorem regionGroups_findVal (ts : List Txn) (r : String) :
    (findVal r (regionGroups ts)).getD (0, 0)
      = (((ts.filter (fun t => decide (t.Region = r))).map amount).sum,
         (ts.filter (fun t => decide (t.Region = r))).length) := by
  have h := findVal_getD_foldl Txn.Region regionStep ((0 : ℚ), (0 : ℕ)) ts [] r
  simp only [findVal, Option.getD_none] at h
  rw [regionGroups, groupFold, h, foldl_regionStep]
  simp

theorem regionGroups_mem {ts : List Txn} {g : String × (ℚ × ℕ)}
    (h : g ∈ regionGroups ts) :
    g.2.1 = ((ts.filter (fun t => decide (t.Region = g.1))).map amount).sum ∧
    g.2.2 = (ts.filter (fun t => decide (t.Region = g.1))).length := by
  have hnd : ((regionGroups ts).map Prod.fst).Nodup :=
    nodup_map_fst_groupFold Txn.Region regionStep (0, 0) ts
  have hf : findVal g.1 (regionGroups ts) = some g.2 := findVal_of_mem hnd h
  have h2 := regionGroups_findVal ts g.1
  rw [hf, Option.getD_some] at h2
  exact ⟨by rw [h2], by rw [h2]⟩

theorem sum_upsert_region (t : Txn) (g : List (String × (ℚ × ℕ))) :
    ((upsert t.Region (regionStep t) (0, 0) g).map (fun p => p.2.1)).sum
      = (g.map (fun p => p.2.1)).sum + amount t := by
  induction g with
  | nil => simp [upsert, regionStep]
  | cons q rest ih =>
    obtain ⟨k, v⟩ := q
    by_cases h : k = t.Region
    · simp only [upsert, if_pos h, List.map_cons, List.sum_cons, regionStep]
      ring
    · simp only [upsert, if_neg h, List.map_cons, List.sum_cons, ih]
      ring

theorem sum_foldl_region :
    ∀ (l : List Txn) (g : List (String × (ℚ × ℕ))),
      ((l.foldl (fun g t => upsert (Txn.Region t) (regionStep t) (0, 0) g) g).map
          (fun p => p.2.1)).sum
        = (g.map (fun p => p.2.1)).sum + (l.map amount).sum
  | [], g => by simp
  | t :: l, g => by
    simp only [List.foldl_cons, List.map_cons, List.sum_cons]
    rw [sum_foldl_region l _, sum_upsert_region]
    ring

theorem sum_regionGroups (ts : List Txn) :
    ((regionGroups ts).map (fun p => p.2.1)).sum = calculate_total_revenue ts := by
  have h := sum_foldl_region ts []
  simpa [regionGroups, groupFold, calculate_total_revenue] using h

theorem amount_pos_of_valid {t : Txn} (h : is_valid t = true) : 0 < amount t := by
  simp only [is_valid, Bool.and_eq_true, decide_eq_true_eq] at h
  have hq : (0 : ℚ) < (t.Quantity : ℚ) := by exact_mod_cast h.1.2
  exact mul_pos hq h.2

theorem total_revenue_pos {ts : List Txn} (hne : ts ≠ [])
    (hv : ∀ t ∈ ts, is_valid t = true) : 0 < calculate_total_revenue ts := by
  cases ts with
  | nil => exact absurd rfl hne
  | cons t rest =>
    simp only [calculate_total_revenue, List.map_cons, List.sum_cons]
    have h1 : 0 < amount t := amount_pos_of_valid (hv t (by simp))
    have h2 : 0 ≤ (rest.map amount).sum := by
      apply List.sum_nonneg
      intro x hx
      obtain ⟨u, hu, rfl⟩ := List.mem_map.mp hx
      exact le_of_lt (amount_pos_of_valid (hv u (by simp [hu])))
    linarith

theorem region_wise_sales_some {ts : List Txn}
    (h : calculate_total_revenue ts ≠ 0) :
    region_wise_sales ts = some ((region_entries ts).mergeSort byTotalDesc) := by
  unfold region_wise_sales
  rw [if_neg]
  intro hc
  exact h hc.2

theorem byTotalDesc_trans :
    ∀ a b c, byTotalDesc a b = true → byTotalDesc b c = true →
      byTotalDesc a c = true := by
  intro a b c h1 h2
  simp only [byTotalDesc, decide_eq_true_eq] at *
  exact le_trans h2 h1

theorem byTotalDesc_total : ∀ a b, (byTotalDesc a b || byTotalDesc b a) = true := by
  intro a b
  simp only [byTotalDesc, Bool.or_eq_true, decide_eq_true_eq]
  exact le_total b.total_sales a.total_sales

theorem filter_mergeSort_of_const {α : Type} (le : α → α → Bool)
    (htrans : ∀ a b c, le a b = true → le b c = true → le a c = true)
    (htot : ∀ a b, (le a b || le b a) = true)
    (p : α → Bool) (l : List α)
    (hp : ∀ a b, p a = true → p b = true → le a b = true) :
    (l.mergeSort le).filter p = l.filter p := by
  have hpw : (l.filter p).Pairwise (fun a b => le a b = true) := by
    apply List.pairwise_of_forall_mem_list
    intro a ha b hb
    exact hp a b (List.of_mem_filter ha) (List.of_mem_filter hb)
  have hsub : (l.filter p).Sublist (l.mergeSort le) :=
    List.sublist_mergeSort htrans htot hpw (List.filter_sublist l)
  have hsub2 : ((l.filter p).filter p).Sublist ((l.mergeSort le).filter p) :=
    hsub.filter p
  have hself : (l.filter p).filter p = l.filter p := by
    rw [List.filter_filter]
    simp
  rw [hself] at hsub2
  have hperm : ((l.mergeSort le).filter p).Perm (l.filter p) :=
    (List.mergeSort_perm l le).filter p
  exact (hsub2.eq_of_length hperm.length_eq.symm).symm

theorem region_entries_map_region (ts : List Txn) :
    (region_entries ts).map RegionStat.region
      = firstOccurrences (ts.map Txn.Region) := by
  unfold region_entries
  rw [List.map_map]
  have h : (RegionStat.region ∘ fun g : String × (ℚ × ℕ) =>
      ({ region := g.1, total_sales := g.2.1, transaction_count := g.2.2,
         percentage := round2 (g.2.1 / calculate_total_revenue ts * 100) } :
        RegionStat)) = Prod.fst := rfl
  rw [h]
  exact map_fst_groupFold Txn.Region regionStep (0, 0) ts

/-- Sample valid transaction: region "North", amount 100 (spec's region
scenario, first record). -/
def tN : Txn :=
  { TransactionID := "T002", Date := "2024-01-01", ProductID := "P02",
    ProductName := "Alpha", Quantity := 10, UnitPrice := 10,
    CustomerID := "C02", Region := "North" }

/-- Sample valid transaction: region "South", amount 300 (spec's region
scenario, second record). -/
def tS : Txn :=
  { TransactionID := "T003", Date := "2024-01-02", ProductID := "P03",
    ProductName := "Beta", Quantity := 3, UnitPrice := 100,
    CustomerID := "C03", Region := "South" }

/-- C3: on a non-empty business-valid list, `region_wise_sales` succeeds and
returns one entry per region (keys are the distinct regions in
first-encounter order, permuted by the sort); each entry carries the sum of
`Quantity × UnitPrice` and the transaction count of its region, and a
percentage equal to (region total / overall total) × 100 rounded to 2
decimals; the output is ordered by total sales descending, and entries with
equal totals keep the first-creation (encounter) order, stated as: the
output filtered to any fixed total equals the pre-sort entry list filtered
to that total. -/
theorem claim_C3 (ts : List Txn) (h1 : ts ≠ [])
    (h2 : ∀ t ∈ ts, is_valid t = true) :
    ∃ out, region_wise_sales ts = some out ∧
      (∀ e ∈ out,
        e.total_sales
          = ((ts.filter (fun t => decide (t.Region = e.region))).map amount).sum ∧
        e.transaction_count
          = (ts.filter (fun t => decide (t.Region = e.region))).length ∧
        e.percentage = round2 (e.total_sales / calculate_total_revenue ts * 100)) ∧
      out.Pairwise (fun a b => b.total_sales ≤ a.total_sales) ∧
      (∀ v : ℚ, out.filter (fun e => decide (e.total_sales = v))
        = (region_entries ts).filter (fun e => decide (e.total_sales = v))) ∧
      (region_entries ts).map RegionStat.region
        = firstOccurrences (ts.map Txn.Region) ∧
      (out.map RegionStat.region).Perm (firstOccurrences (ts.map Txn.Region)) := by
  have htot := total_revenue_pos h1 h2
  refine ⟨_, region_wise_sales_some (ne_of_gt htot), ?_, ?_, ?_,
    region_entries_map_region ts, ?_⟩
  · intro e he
    rw [List.mem_mergeSort] at he
    obtain ⟨g, hg, rfl⟩ := List.mem_map.mp he
    obtain ⟨hs, hc⟩ := regionGroups_mem hg
    exact ⟨hs, hc, rfl⟩
  · have h := List.sorted_mergeSort byTotalDesc_trans byTotalDesc_total
      (region_entries ts)
    exact h.imp (fun hab => by simpa [byTotalDesc] using hab)
  · intro v
    apply filter_mergeSort_of_const byTotalDesc byTotalDesc_trans byTotalDesc_total
    intro a b ha hb
    simp only [decide_eq_true_eq] at ha hb
    simp [byTotalDesc, ha, hb]
  · have hperm := (List.mergeSort_perm (region_entries ts) byTotalDesc).map
      RegionStat.region
    rw [region_entries_map_region ts] at hperm
    exact hperm

theorem claim_C3_witness :
    ∃ out, region_wise_sales [tN, tS] = some out ∧
      (∀ e ∈ out,
        e.total_sales
          = (([tN, tS].filter (fun t => decide (t.Region = e.region))).map amount).sum ∧
        e.transaction_count
          = ([tN, tS].filter (fun t => decide (t.Region = e.region))).length ∧
        e.percentage
          = round2 (e.total_sales / calculate_total_revenue [tN, tS] * 100)) ∧
      out.Pairwise (fun a b => b.total_sales ≤ a.total_sales) ∧
      (∀ v : ℚ, out.filter (fun e => decide (e.total_sales = v))
        = (region_entries [tN, tS]).filter (fun e => decide (e.total_sales = v))) ∧
      (region_entries [tN, tS]).map RegionStat.region
        = firstOccurrences ([tN, tS].map Txn.Region) ∧
      (out.map RegionStat.region).Perm (firstOccurrences ([tN, tS].map Txn.Region)) :=
  claim_C3 [tN, tS] (by simp) (by decide)

/-- C5: on a non-empty business-valid list, the region totals of
`region_wise_sales` sum exactly (in `ℚ`) to `calculate_total_revenue`. -/
theorem claim_C5 (ts : List Txn) (h1 : ts ≠ [])
    (h2 : ∀ t ∈ ts, is_valid t = true) :
    ∃ out, region_wise_sales ts = some out ∧
      (out.map RegionStat.total_sales).sum = calculate_total_revenue ts := by
  have htot := total_revenue_pos h1 h2
  refine ⟨_, region_wise_sales_some (ne_of_gt htot), ?_⟩
  have hperm := (List.mergeSort_perm (region_entries ts) byTotalDesc).map
    RegionStat.total_sales
  rw [hperm.sum_eq]
  unfold region_entries
  rw [List.map_map]
  have h : (RegionStat.total_sales ∘ fun g : String × (ℚ × ℕ) =>
      ({ region := g.1, total_sales := g.2.1, transaction_count := g.2.2,
         percentage := round2 (g.2.1 / calculate_total_revenue ts * 100) } :
        RegionStat)) = fun p => p.2.1 := rfl
  rw [h]
  exact sum_regionGroups ts

theorem claim_C5_witness :
    ∃ out, region_wise_sales [t0] = some out ∧
      (out.map RegionStat.total_sales).sum = calculate_total_revenue [t0] :=
  claim_C5 [t0] (by simp) (by decide)

/-- A parseable but business-invalid transaction with `Quantity = 0`:
its amount is 0, so a list holding only it has total revenue 0. -/
def tz : Txn :=
  { TransactionID := "T004", Date := "2024-01-03", ProductID := "P04",
    ProductName := "Gamma", Quantity := 0, UnitPrice := 5,
    CustomerID := "C04", Region := "South" }

/-- C8 counterexample: `[tz]` is a (non-empty) transaction list with total
revenue 0, but `region_wise_sales` divides by the zero total in its
percentage loop and raises `ZeroDivisionError` (modelled by `none`) — it
neither avoids the division nor produces any percentage. -/
theorem claim_C8_counterexample :
    calculate_total_revenue [tz] = 0 ∧ region_wise_sales [tz] = none := by
  have h0 : calculate_total_revenue [tz] = 0 := by
    simp [calculate_total_revenue, amount, tz]
  refine ⟨h0, ?_⟩
  unfold region_wise_sales
  rw [if_pos]
  exact ⟨groupFold_ne_nil Txn.Region regionStep (0, 0) (by simp), h0⟩

/-- C8 as amended: only the *empty* list is safe — there
`region_wise_sales` performs no division and returns the empty mapping
(so, vacuously, every percentage it produces is 0); on any *non-empty*
list whose total revenue is 0 the percentage loop raises
`ZeroDivisionError` (modelled by `none`). -/
theorem claim_C8_amended :
    region_wise_sales ([] : List Txn) = some [] ∧
    ∀ ts : List Txn, ts ≠ [] → calculate_total_revenue ts = 0 →
      region_wise_sales ts = none := by
  constructor
  · unfold region_wise_sales
    rw [if_neg (fun h => h.1 rfl)]
    simp [region_entries, regionGroups, groupFold]
  · intro ts hne h0
    unfold region_wise_sales
    rw [if_pos]
    exact ⟨groupFold_ne_nil Txn.Region regionStep (0, 0) hne, h0⟩

theorem claim_C8_witness : region_wise_sales [tz] = none :=
  claim_C8_amended.2 [tz] (by simp) (by simp [calculate_total_revenue, amount, tz])

theorem lexLE_refl : ∀ cs : List Char, lexLE cs cs = true
  | [] => rfl
  | c :: cs => by simp [lexLE, lexLE_refl cs]

theorem lexLE_total : ∀ as bs : List Char, (lexLE as bs || lexLE bs as) = true
  | [], _ => by simp [lexLE]
  | _ :: _, [] => by simp [lexLE]
  | a :: as, b :: bs => by
    by_cases h : a = b
    · subst h
      simpa [lexLE] using lexLE_total as bs
    · have h2 : b ≠ a := fun hh => h hh.symm
      simp only [lexLE, if_neg h, if_neg h2, Bool.or_eq_true, decide_eq_true_eq]
      exact lt_or_gt_of_ne h

theorem lexLE_trans :
    ∀ as bs cs : List Char,
      lexLE as bs = true → lexLE bs cs = true → lexLE as cs = true
  | [], _, _, _, _ => rfl
  | _ :: _, [], _, h1, _ => by simp [lexLE] at h1
  | _ :: _, _ :: _, [], _, h2 => by simp [lexLE] at h2
  | a :: as, b :: bs, c :: cs, h1, h2 => by
    by_cases hab : a = b
    · subst hab
      by_cases hac : a = c
      · subst hac
        simp only [lexLE, if_pos rfl] at h1 h2 ⊢
        exact lexLE_trans as bs cs h1 h2
      · simp only [lexLE, if_pos rfl] at h1
        simp only [lexLE, if_neg hac] at h2 ⊢
        exact h2
    · simp only [lexLE, if_neg hab, decide_eq_true_eq] at h1
      by_cases hbc : b = c
      · subst hbc
        simp only [lexLE, if_neg hab, decide_eq_true_eq]
        exact h1
      · simp only [lexLE, if_neg hbc, decide_eq_true_eq] at h2
        have hac : a < c := lt_trans h1 h2
        simp only [lexLE, if_neg (ne_of_lt hac), decide_eq_true_eq]
        exact hac

/-- Model of Python `set.add` on a list kept duplicate-free: the set of
customer ids accumulated by `daily_sales_trend`. -/
def insertNew (x : String) (l : List String) : List String :=
  if x ∈ l then l else l ++ [x]

/-- The accumulator update of the `daily_sales_trend` grouping loop
(`data_processor.py` lines 65-67). -/
def dailyStep (t : Txn) (p : ℚ × ℕ × List String) : ℚ × ℕ × List String :=
  (p.1 + amount t, p.2.1 + 1, insertNew t.CustomerID p.2.2)

/-- The `daily_stats` dict after the grouping loop of `daily_sales_trend`
(`data_processor.py` lines 60-67), in insertion order. -/
def dailyGroups (ts : List Txn) : List (String × (ℚ × ℕ × List String)) :=
  groupFold Txn.Date dailyStep (0, 0, []) ts

/-- One entry of the mapping returned by `daily_sales_trend`
(`data_processor.py` lines 71-75). -/
structure DayStat where
  date : String
  revenue : ℚ
  transaction_count : ℕ
  unique_customers : ℕ
deriving DecidableEq

/-- Sort key for `sorted(daily_stats.keys())` lifted to the entries
(keys are distinct, so sorting entries by key equals iterating sorted
keys and looking each up). -/
def byDateAsc (a b : String × (ℚ × ℕ × List String)) : Bool := dateLE a.1 b.1

/-- `daily_sales_trend` (`data_processor.py` lines 58-76): group by date,
then emit entries in ascending date order with the customer-set collapsed
to its cardinality. -/
def daily_sales_trend (ts : List Txn) : List DayStat :=
  ((dailyGroups ts).mergeSort byDateAsc).map (fun g =>
    { date := g.1, revenue := g.2.1, transaction_count := g.2.2.1,
      unique_customers := g.2.2.2.length })

/-- The fold performed by Python `max(trend, key=lambda d: trend[d]['revenue'])`:
keep the current maximum, replacing it only on a strictly greater key, so
the first maximum in iteration order wins. -/
def maxByRev (m : DayStat) : List DayStat → DayStat
  | [] => m
  | x :: xs => maxByRev (if m.revenue < x.revenue then x else m) xs

/-- `find_peak_sales_day` (`data_processor.py` lines 78-82).  `none` models
the `ValueError` Python's `max` raises on an empty trend. -/
def find_peak_sales_day (ts : List Txn) : Option (String × ℚ × ℕ) :=
  match daily_sales_trend ts with
  | [] => none
  | e :: rest =>
    let m := maxByRev e rest
    some (m.date, m.revenue, m.transaction_count)

theorem byDateAsc_trans :
    ∀ a b c : String × (ℚ × ℕ × List String),
      byDateAsc a b = true → byDateAsc b c = true → byDateAsc a c = true :=
  fun _ _ _ h1 h2 => lexLE_trans _ _ _ h1 h2

theorem byDateAsc_total :
    ∀ a b : String × (ℚ × ℕ × List String),
      (byDateAsc a b || byDateAsc b a) = true :=
  fun _ _ => lexLE_total _ _

theorem maxByRev_mem : ∀ (l : List DayStat) (m : DayStat), maxByRev m l ∈ m :: l
  | [], m => by simp [maxByRev]
  | x :: xs, m => by
    simp only [maxByRev]
    by_cases h : m.revenue < x.revenue
    · rw [if_pos h]
      rcases List.mem_cons.mp (maxByRev_mem xs x) with h2 | h2
      · simp [h2]
      · simp [h2]
    · rw [if_neg h]
      rcases List.mem_cons.mp (maxByRev_mem xs m) with h2 | h2
      · simp [h2]
      · simp [h2]

theorem maxByRev_ge :
    ∀ (l : List DayStat) (m : DayStat),
      ∀ x ∈ m :: l, x.revenue ≤ (maxByRev m l).revenue
  | [], m, x, hx => by
    simp only [List.mem_singleton] at hx
    subst hx
    exact le_refl _
  | y :: ys, m, x, hx => by
    simp only [maxByRev]
    by_cases h : m.revenue < y.revenue
    · rw [if_pos h]
      rcases List.mem_cons.mp hx with rfl | hx2
      · have hy := maxByRev_ge ys y y (by simp)
        exact le_of_lt (lt_of_lt_of_le h hy)
      · rcases List.mem_cons.mp hx2 with rfl | hx3
        · exact maxByRev_ge ys x x (by simp)
        · exact maxByRev_ge ys y x (by simp [hx3])
    · rw [if_neg h]
      rcases List.mem_cons.mp hx with rfl | hx2
      · exact maxByRev_ge ys x x (by simp)
      · rcases List.mem_cons.mp hx2 with rfl | hx3
        · have hm := maxByRev_ge ys m m (by simp)
          exact le_trans (le_of_not_lt h) hm
        · exact maxByRev_ge ys m x (by simp [hx3])

theorem maxByRev_lt_of_ne :
    ∀ (l : List DayStat) (m : DayStat),
      maxByRev m l ≠ m → m.revenue < (maxByRev m l).revenue
  | [], _, h => absurd rfl h
  | y :: ys, m, h => by
    simp only [maxByRev] at h ⊢
    by_cases hy : m.revenue < y.revenue
    · rw [if_pos hy] at h ⊢
      have hg := maxByRev_ge ys y y (by simp)
      exact lt_of_lt_of_le hy hg
    · rw [if_neg hy] at h ⊢
      exact maxByRev_lt_of_ne ys m h

theorem maxByRev_earliest :
    ∀ (l : List DayStat) (m : DayStat),
      (m :: l).Pairwise (fun a b => dateLE a.date b.date = true ∧ a.date ≠ b.date) →
      ∀ x ∈ m :: l, x.revenue = (maxByRev m l).revenue →
        dateLE (maxByRev m l).date x.date = true
  | [], m, _, x, hx, _ => by
    simp only [List.mem_singleton] at hx
    subst hx
    exact lexLE_refl _
  | y :: ys, m, hpw, x, hx, hrev => by
    obtain ⟨hmall, hpw2⟩ := List.pairwise_cons.mp hpw
    simp only [maxByRev] at hrev ⊢
    by_cases hy : m.revenue < y.revenue
    · rw [if_pos hy] at hrev ⊢
      rcases List.mem_cons.mp hx with rfl | hx2
      · exfalso
        have h1 := maxByRev_ge ys y y (by simp)
        exact absurd hrev (ne_of_lt (lt_of_lt_of_le hy h1))
      · exact maxByRev_earliest ys y hpw2 x hx2 hrev
    · rw [if_neg hy] at hrev ⊢
      have hpw3 : (m :: ys).Pairwise
          (fun a b => dateLE a.date b.date = true ∧ a.date ≠ b.date) := by
        rw [List.pairwise_cons]
        exact ⟨fun b hb => hmall b (by simp [hb]),
          (List.pairwise_cons.mp hpw2).2⟩
      rcases List.mem_cons.mp hx with rfl | hx2
      · exact maxByRev_earliest ys x hpw3 x (by simp) hrev
      · rcases List.mem_cons.mp hx2 with rfl | hx3
        · by_cases hrm : maxByRev m ys = m
          · rw [hrm]
            exact (hmall x (by simp)).1
          · exfalso
            have hlt := maxByRev_lt_of_ne ys m hrm
            have hle : x.revenue ≤ m.revenue := le_of_not_lt hy
            rw [hrev] at hle
            exact absurd hlt (not_lt_of_le hle)
        · exact maxByRev_earliest ys m hpw3 x (by simp [hx3]) hrev

theorem daily_sales_trend_ne_nil {ts : List Txn} (h : ts ≠ []) :
    daily_sales_trend ts ≠ [] := by
  unfold daily_sales_trend
  intro hc
  rw [List.map_eq_nil_iff] at hc
  have h2 := List.mergeSort_perm (dailyGroups ts) byDateAsc
  rw [hc] at h2
  exact groupFold_ne_nil Txn.Date dailyStep (0, 0, []) h h2.symm.eq_nil

theorem daily_trend_pairwise (ts : List Txn) :
    (daily_sales_trend ts).Pairwise
      (fun a b => dateLE a.date b.date = true ∧ a.date ≠ b.date) := by
  unfold daily_sales_trend
  rw [List.pairwise_map]
  have hsorted := List.sorted_mergeSort byDateAsc_trans byDateAsc_total
    (dailyGroups ts)
  have hnodup : ((dailyGroups ts).map Prod.fst).Nodup :=
    nodup_map_fst_groupFold Txn.Date dailyStep (0, 0, []) ts
  have hnodup2 : (((dailyGroups ts).mergeSort byDateAsc).map Prod.fst).Nodup :=
    (((List.mergeSort_perm (dailyGroups ts) byDateAsc).map Prod.fst).nodup_iff).mpr
      hnodup
  have hne : ((dailyGroups ts).mergeSort byDateAsc).Pairwise
      (fun a b => a.1 ≠ b.1) := by
    have h := hnodup2
    unfold List.Nodup at h
    rw [List.pairwise_map] at h
    exact h
  exact (hsorted.and hne).imp (fun h => ⟨h.1, h.2⟩)

/-- C4: on a non-empty (valid) list, `find_peak_sales_day` returns a date,
revenue and transaction count taken from one entry of the daily trend; its
revenue is maximal over the trend, and any trend entry sharing the maximal
revenue has a date no earlier (in Python string order) than the returned
date — i.e. ties go to the earliest date of the ascending trend. -/
theorem claim_C4 (ts : List Txn) (h1 : ts ≠ [])
    (_hv : ∀ t ∈ ts, is_valid t = true) :
    ∃ d rev cnt, find_peak_sales_day ts = some (d, rev, cnt) ∧
      (∃ e ∈ daily_sales_trend ts,
        e.date = d ∧ e.revenue = rev ∧ e.transaction_count = cnt) ∧
      (∀ e ∈ daily_sales_trend ts, e.revenue ≤ rev) ∧
      (∀ e ∈ daily_sales_trend ts, e.revenue = rev → dateLE d e.date = true) := by
  have hne := daily_sales_trend_ne_nil h1
  obtain ⟨e, rest, htrend⟩ : ∃ e rest, daily_sales_trend ts = e :: rest := by
    cases h : daily_sales_trend ts with
    | nil => exact absurd h hne
    | cons e rest => exact ⟨e, rest, rfl⟩
  have hpw := daily_trend_pairwise ts
  rw [htrend] at hpw
  refine ⟨(maxByRev e rest).date, (maxByRev e rest).revenue,
    (maxByRev e rest).transaction_count, ?_, ?_, ?_, ?_⟩
  · unfold find_peak_sales_day
    rw [htrend]
  · rw [htrend]
    exact ⟨maxByRev e rest, maxByRev_mem rest e, rfl, rfl, rfl⟩
  · rw [htrend]
    exact fun x hx => maxByRev_ge rest e x hx
  · rw [htrend]
    exact fun x hx hr => maxByRev_earliest rest e hpw x hx hr

theorem claim_C4_witness :
    ∃ d rev cnt, find_peak_sales_day [tN, tS] = some (d, rev, cnt) ∧
      (∃ e ∈ daily_sales_trend [tN, tS],
        e.date = d ∧ e.revenue = rev ∧ e.transaction_count = cnt) ∧
      (∀ e ∈ daily_sales_trend [tN, tS], e.revenue ≤ rev) ∧
      (∀ e ∈ daily_sales_trend [tN, tS], e.revenue = rev →
        dateLE d e.date = true) :=
  claim_C4 [tN, tS] (by simp) (by decide)

/-- `fetch_region_managers` (`api_handler.py` lines 19-29): the fixed
Region → Manager mapping the provider returns. -/
def fetch_region_managers : List (String × String) :=
  [("North", "Amit Sharma"), ("South", "Priya Mani"),
   ("East", "Rajesh Gupta"), ("West", "Sneha Patil")]

/-- The per-transaction body of the `enrich_transaction_data` loop
(`data_processor.py` lines 136-142): attach the converted prices and the
manager label `managers.get(region, "Unknown")`. -/
def enrichOne (inr_rate : ℚ) (t : Txn) : Txn :=
  let up := round2 (t.UnitPrice * inr_rate)
  { t with
    UnitPrice_INR := some up,
    Total_Amount_INR := some (round2 ((t.Quantity : ℚ) * up)),
    Region_Manager :=
      some ((findVal t.Region fetch_region_managers).getD "Unknown") }

/-- `enrich_transaction_data` (`data_processor.py` lines 125-144).  The
exchange-rate table comes from the network (with a fixed fallback), so it
is a parameter here; the code reads `rates.get('INR', 83.0)`.  The
in-place mutation of each dict is modelled as a map. -/
def enrich_transaction_data (rates : List (String × ℚ)) (ts : List Txn) :
    List Txn :=
  ts.map (enrichOne ((findVal "INR" rates).getD 83))

/-- `len([t for t in enriched_transactions if 'Region_Manager' in t])`
(`data_processor.py` line 213). -/
def enriched_manager_count (enriched : List Txn) : ℕ :=
  (enriched.filter (fun t => t.Region_Manager.isSome)).length

/-- `(enriched_count / len(transactions)) * 100 if transactions else 0`
(`data_processor.py` line 214). -/
def enrichment_success_rate (transactions enriched : List Txn) : ℚ :=
  if transactions = [] then 0
  else ((enriched_manager_count enriched : ℚ) / (transactions.length : ℚ)) * 100

/-- C9: enrichment labels every transaction with
`managers.get(Region, "Unknown")`: the provider mapping's value when the
region is a key of the mapping, `"Unknown"` when it is absent.  The
embedding is a total function — `dict.get` with a default raises no
exception. -/
theorem claim_C9 (rates : List (String × ℚ)) (ts : List Txn) :
    (enrich_transaction_data rates ts).map Txn.Region_Manager
      = ts.map (fun t =>
          some ((findVal t.Region fetch_region_managers).getD "Unknown")) ∧
    (∀ r : String, r ∉ fetch_region_managers.map Prod.fst →
      (findVal r fetch_region_managers).getD "Unknown" = "Unknown") ∧
    (∀ p : String × String, p ∈ fetch_region_managers →
      (findVal p.1 fetch_region_managers).getD "Unknown" = p.2) := by
  refine ⟨?_, ?_, ?_⟩
  · unfold enrich_transaction_data
    rw [List.map_map]
    rfl
  · intro r hr
    rw [(findVal_eq_none_iff r fetch_region_managers).mpr hr]
    rfl
  · intro p hp
    have hnd : (fetch_region_managers.map Prod.fst).Nodup := by decide
    rw [findVal_of_mem hnd hp]
    rfl

theorem claim_C9_witness :
    (findVal "Mars" fetch_region_managers).getD "Unknown" = "Unknown" :=
  (claim_C9 [] []).2.1 "Mars" (by decide)

/-- C10: every transaction returned by `enrich_transaction_data` carries a
`Region_Manager` label, so the report's enrichment count equals the input
length, and the reported success rate is 100% whenever the list is
non-empty. -/
theorem claim_C10 (rates : List (String × ℚ)) (ts : List Txn) :
    (∀ t ∈ enrich_transaction_data rates ts, t.Region_Manager.isSome = true) ∧
    enriched_manager_count (enrich_transaction_data rates ts) = ts.length ∧
    (ts ≠ [] →
      enrichment_success_rate ts (enrich_transaction_data rates ts) = 100) := by
  have hall : ∀ t ∈ enrich_transaction_data rates ts,
      t.Region_Manager.isSome = true := by
    intro t ht
    obtain ⟨u, _, rfl⟩ := List.mem_map.mp ht
    rfl
  have hcount : enriched_manager_count (enrich_transaction_data rates ts)
      = ts.length := by
    unfold enriched_manager_count
    rw [List.filter_eq_self.mpr hall]
    unfold enrich_transaction_data
    simp
  refine ⟨hall, hcount, ?_⟩
  intro hne
  unfold enrichment_success_rate
  rw [if_neg hne, hcount]
  have hlen : (ts.length : ℚ) ≠ 0 :=
    Nat.cast_ne_zero.mpr (fun h => hne (List.length_eq_zero.mp h))
  rw [div_self hlen, one_mul]

theorem claim_C10_witness :
    enrichment_success_rate [t0] (enrich_transaction_data [] [t0]) = 100 :=
  (claim_C10 [] [t0]).2.2 (by simp)
